/-
Verification of the omkarpython repository's two core modules:
  * OOP/P09_BankAccount.py  (class BankAccount)
  * Programs/P30_Array.py   (class Array)

Shallow embedding notes.
  * Python `Decimal` values are modelled as rationals (ℚ).  Construction via
    `Decimal(str(x))` and all comparisons are exact, but `+`/`-` operate
    under the default decimal context: results are rounded to 28 significant
    digits (ROUND_HALF_EVEN) and `decimal.Overflow` is trapped.  The bank
    operations are therefore modelled twice: an idealized exact-arithmetic
    model (`BankAccount.deposit`/`withdraw`/`transfer_to`), adequate for the
    sign- and error-path properties that are insensitive to rounding, and a
    context-faithful model (`DecimalCtx.*` over `decRound`/`decAdd`/
    `decSub`) used for the properties that the rounding semantics decide.
  * `Decimal(str(amount))` parsing may fail (InvalidOperation/TypeError), so
    amounts entering an operation are `Option ℚ`: `some a` is a value that
    parses to the exact decimal `a`, `none` is a value that fails to parse.
  * Python mutation is modelled by returning the post-call object alongside
    the result; an error result is paired with the object exactly as the
    Python object stands after the exception propagates.
  * The class attribute `_next_account_number` is threaded explicitly
    through the constructor.
-/
import Mathlib

namespace OmkarPython

/-- Error signals reachable through `P09_BankAccount.py`: `ValueError`,
`InvalidAmountError`, `InsufficientFundsError`, and `decimal.Overflow`
(raised by a balance addition/subtraction past the context's `Emax`;
`Overflow` is trapped in the default decimal context and is not caught by
the `except (InvalidOperation, TypeError)` clauses, so it propagates). -/
inductive BankError
  | valueError
  | invalidAmount
  | insufficientFunds
  | overflow
  deriving DecidableEq, Repr

/-- The instance attributes of class `BankAccount` (P09_BankAccount.py):
`name`, `balance` (a Decimal, modelled as ℚ), `account_number`. -/
structure BankAccount where
  name : String
  balance : ℚ
  account_number : ℕ
  deriving DecidableEq, Repr

/-- The seed of the class attribute `_next_account_number: int = 1000`. -/
def initialAccountNumber : ℕ := 1000

/-- The ASCII whitespace characters `str.strip()` removes
(space, `\t`, `\n`, `\r`, `\v`, `\f`); the further Unicode whitespace code
points Python also strips only shift which names fail validation and are
not modelled. -/
def pyIsSpace (c : Char) : Bool :=
  c = ' ' || c = '\t' || c = '\n' || c = '\r' || c = '\x0b' || c = '\x0c'

/-- Python's `str.strip()`: remove leading and trailing whitespace. -/
def pyStrip (s : String) : String :=
  ⟨((s.data.dropWhile pyIsSpace).reverse.dropWhile pyIsSpace).reverse⟩

/-- `BankAccount.__init__`: validates the holder name (must be a string that
is non-empty after `strip()`), parses the initial balance
(`Decimal(str(initial_balance))`; parse failure is `InvalidAmountError`),
rejects a negative balance with `ValueError`, and only then assigns
`_next_account_number` as the id and increments the counter.  Returns the
result together with the counter after the call: a failed construction
leaves the counter untouched. -/
def mkBankAccount (counter : ℕ) (name : String) (initial : Option ℚ) :
    Except BankError BankAccount × ℕ :=
  if pyStrip name = "" then (.error .valueError, counter)
  else
    match initial with
    | none => (.error .invalidAmount, counter)
    | some b =>
        if b < 0 then (.error .valueError, counter)
        else (.ok ⟨pyStrip name, b, counter⟩, counter + 1)

/-- `BankAccount.deposit`, exact-arithmetic idealization: parse the amount
(failure → `InvalidAmountError`), reject `amount <= 0` with
`InvalidAmountError`, else `balance += amount` and return the new balance.
The first component is the account after the call.  The real
`self.balance += deposit_amount` rounds to the context's 28 significant
digits and can raise the trapped `decimal.Overflow`; `DecimalCtx.deposit`
models that faithfully, and this idealization is used only for properties
insensitive to it (sign of the balance, the error paths before the
addition). -/
def BankAccount.deposit (acct : BankAccount) (amount : Option ℚ) :
    BankAccount × Except BankError ℚ :=
  match amount with
  | none => (acct, .error .invalidAmount)
  | some a =>
      if a ≤ 0 then (acct, .error .invalidAmount)
      else
        let acct' := { acct with balance := acct.balance + a }
        (acct', .ok acct'.balance)

/-- `BankAccount.withdraw`, exact-arithmetic idealization: parse the amount
(failure → `InvalidAmountError`), reject `amount <= 0` with
`InvalidAmountError`, reject `amount > balance` with
`InsufficientFundsError` — both comparisons are exact in Python too — else
`balance -= amount` and return the new balance.  The first component is the
account after the call.  The real `self.balance -= withdrawal_amount`
rounds to 28 significant digits; `DecimalCtx.withdraw` models that
faithfully, and this idealization is used only for rounding-insensitive
properties. -/
def BankAccount.withdraw (acct : BankAccount) (amount : Option ℚ) :
    BankAccount × Except BankError ℚ :=
  match amount with
  | none => (acct, .error .invalidAmount)
  | some a =>
      if a ≤ 0 then (acct, .error .invalidAmount)
      else if acct.balance < a then (acct, .error .insufficientFunds)
      else
        let acct' := { acct with balance := acct.balance - a }
        (acct', .ok acct'.balance)

/-- `BankAccount.transfer_to` on two distinct accounts, exact-arithmetic
idealization: `self.withdraw(amount)` then `other_account.deposit(amount)`,
returning `(self.balance, other_account.balance)`.  The `isinstance` check
on the destination always passes in this typed embedding.  The first two
components are sender and receiver after the call; an exception from either
inner call propagates with the objects as they stand at that point.
`DecimalCtx.transfer_to` is the context-faithful version. -/
def BankAccount.transfer_to (sender receiver : BankAccount)
    (amount : Option ℚ) :
    BankAccount × BankAccount × Except BankError (ℚ × ℚ) :=
  let w := sender.withdraw amount
  match w.2 with
  | .error e => (w.1, receiver, .error e)
  | .ok _ =>
      let d := receiver.deposit amount
      match d.2 with
      | .error e => (w.1, d.1, .error e)
      | .ok _ => (w.1, d.1, .ok (w.1.balance, d.1.balance))

/-! ### The default decimal context (prec 28, ROUND_HALF_EVEN, Overflow
trapped) and the context-faithful bank operations -/

/-- Number of base-10 digits of `n` (so 1 for 0–9), by structural fuel
recursion; any `fuel ≥ n` gives the exact count. -/
def digitLenAux : ℕ → ℕ → ℕ
  | 0, _ => 0
  | fuel + 1, n => if n < 10 then 1 else digitLenAux fuel (n / 10) + 1

/-- Number of base-10 digits of a natural number. -/
def digitLen (n : ℕ) : ℕ := digitLenAux n n

/-- `prec` of Python's default decimal context. -/
def decPrec : ℕ := 28

/-- `Emax` of Python's default decimal context. -/
def decEmax : ℤ := 999999999999999999

/-- `Emin` of Python's default decimal context. -/
def decEmin : ℤ := -999999999999999999

/-- `Etiny = Emin - prec + 1`: the lowest digit position a subnormal result
is rounded at (Underflow is not trapped by default, so subnormal results
are returned rounded, not raised). -/
def decEtiny : ℤ := decEmin - decPrec + 1

/-- The adjusted exponent of a positive rational: the unique `e` with
`10^e ≤ q < 10^(e + 1)`, computed from the digit counts of numerator and
denominator (which pin it down to two candidates). -/
def ratAdjExp (q : ℚ) : ℤ :=
  let k : ℤ := (digitLen q.num.natAbs : ℤ) - (digitLen q.den : ℤ)
  if (10:ℚ) ^ k ≤ q then k else k - 1

/-- `ROUND_HALF_EVEN` to an integer: the nearest integer, ties going to the
even neighbour. -/
def roundHalfEven (x : ℚ) : ℤ :=
  let f := ⌊x⌋
  if x - f < 1/2 then f
  else if 1/2 < x - f then f + 1
  else if f % 2 = 0 then f else f + 1

/-- Rounding of an exact operation result under the default decimal context:
round half-even at the digit position 28 significant digits below the
adjusted exponent, clamped at `Etiny` for subnormal results.  Results
already representable in 28 significant digits are returned unchanged. -/
def decRound (q : ℚ) : ℚ :=
  if q = 0 then 0
  else
    (roundHalfEven (q / (10:ℚ) ^ ((ratAdjExp |q| - decPrec + 1) ⊔ decEtiny))
        : ℚ)
      * (10:ℚ) ^ ((ratAdjExp |q| - decPrec + 1) ⊔ decEtiny)

/-- Decimal context addition: the exact sum, rounded; `none` models the
raised `decimal.Overflow` (trapped by default) when the rounded result's
adjusted exponent exceeds `Emax`. -/
def decAdd (a b : ℚ) : Option ℚ :=
  if decRound (a + b) ≠ 0 ∧ decEmax < ratAdjExp |decRound (a + b)| then none
  else some (decRound (a + b))

/-- Decimal context subtraction; see `decAdd`. -/
def decSub (a b : ℚ) : Option ℚ :=
  if decRound (a - b) ≠ 0 ∧ decEmax < ratAdjExp |decRound (a - b)| then none
  else some (decRound (a - b))

/-- A value exactly representable in the default decimal context: at most 28
significant digits sitting at a quantum in `[Etiny, Emax - prec + 1]`.
`decRound` is the identity on such values and they never overflow. -/
def DecRepresentable (q : ℚ) : Prop :=
  ∃ m d : ℤ, q = (m : ℚ) * (10:ℚ) ^ d ∧ m.natAbs < 10 ^ decPrec
    ∧ decEtiny ≤ d ∧ d ≤ decEmax - decPrec + 1

namespace DecimalCtx

/-- `BankAccount.deposit` under faithful decimal-context arithmetic: the
same validation as the exact model, but `self.balance += deposit_amount`
rounds to 28 significant digits and can raise `decimal.Overflow` (in which
case the augmented assignment never happens and the balance is
unchanged). -/
def deposit (acct : BankAccount) (amount : Option ℚ) :
    BankAccount × Except BankError ℚ :=
  match amount with
  | none => (acct, .error .invalidAmount)
  | some a =>
      if a ≤ 0 then (acct, .error .invalidAmount)
      else
        match decAdd acct.balance a with
        | none => (acct, .error .overflow)
        | some b' => ({ acct with balance := b' }, .ok b')

/-- `BankAccount.withdraw` under faithful decimal-context arithmetic:
amount validation and the balance comparison are exact, but
`self.balance -= withdrawal_amount` rounds and can raise
`decimal.Overflow`. -/
def withdraw (acct : BankAccount) (amount : Option ℚ) :
    BankAccount × Except BankError ℚ :=
  match amount with
  | none => (acct, .error .invalidAmount)
  | some a =>
      if a ≤ 0 then (acct, .error .invalidAmount)
      else if acct.balance < a then (acct, .error .insufficientFunds)
      else
        match decSub acct.balance a with
        | none => (acct, .error .overflow)
        | some b' => ({ acct with balance := b' }, .ok b')

/-- `BankAccount.transfer_to` under faithful decimal-context arithmetic:
withdraw from the sender, then deposit into the receiver; an exception from
either inner call propagates with the objects as they stand at that
point. -/
def transfer_to (sender receiver : BankAccount) (amount : Option ℚ) :
    BankAccount × BankAccount × Except BankError (ℚ × ℚ) :=
  let w := DecimalCtx.withdraw sender amount
  match w.2 with
  | .error e => (w.1, receiver, .error e)
  | .ok _ =>
      let d := DecimalCtx.deposit receiver amount
      match d.2 with
      | .error e => (w.1, d.1, .error e)
      | .ok _ => (w.1, d.1, .ok (w.1.balance, d.1.balance))

end DecimalCtx

/-- An operation on a system of accounts, identified by their positions in a
list.  `transferOp i j` is `accounts[i].transfer_to(accounts[j], amount)`. -/
inductive AccountOp
  | depositOp (i : ℕ) (amount : Option ℚ)
  | withdrawOp (i : ℕ) (amount : Option ℚ)
  | transferOp (i j : ℕ) (amount : Option ℚ)

/-- Run one account operation against a list of live accounts, mirroring the
Python mutation order: a transfer withdraws from the sender first and only
then deposits into the receiver (faithful even when `i = j`). -/
def stepOp (accts : List BankAccount) : AccountOp → List BankAccount
  | .depositOp i amt =>
      match accts.get? i with
      | none => accts
      | some a => accts.set i (a.deposit amt).1
  | .withdrawOp i amt =>
      match accts.get? i with
      | none => accts
      | some a => accts.set i (a.withdraw amt).1
  | .transferOp i j amt =>
      match accts.get? i with
      | none => accts
      | some s =>
          let w := s.withdraw amt
          match w.2 with
          | .error _ => accts.set i w.1
          | .ok _ =>
              let accts' := accts.set i w.1
              match accts'.get? j with
              | none => accts'
              | some r => accts'.set j (r.deposit amt).1

/-- Run a sequence of account operations in order. -/
def runOps (accts : List BankAccount) (ops : List AccountOp) :
    List BankAccount :=
  ops.foldl stepOp accts

/-- Run a sequence of construction attempts, threading the class counter
`_next_account_number` through every call; returns the call results in
order together with the final counter. -/
def runConstructions (counter : ℕ) :
    List (String × Option ℚ) → List (Except BankError BankAccount) × ℕ
  | [] => ([], counter)
  | (name, initial) :: rest =>
      let r := mkBankAccount counter name initial
      let tl := runConstructions r.2 rest
      (r.1 :: tl.1, tl.2)

/-! ## Programs/P30_Array.py -/

/-- Error signals of `P30_Array.py`: `TypeError` (non-integer size),
`ValueError` (non-positive size / initial list longer than size),
`ArrayError` ("Cannot insert: array is full"), `IndexError`. -/
inductive ArrError
  | typeError
  | valueError
  | arrayError
  | indexError
  deriving DecidableEq, Repr

/-- The `default_value` argument of `Array.__init__`: Python `None` (also the
default), a Python list (whose entries may themselves be `None`), or a single
value that is neither `None` nor a list. -/
inductive ArrayArg (V : Type)
  | noneArg : ArrayArg V
  | listArg : List (Option V) → ArrayArg V
  | valueArg : V → ArrayArg V

/-- Class `Array` of P30_Array.py: attributes `size` and `items`, a Python
list of length `size` whose entries are either a value or `None`. -/
structure Array (V : Type) where
  size : ℕ
  items : List (Option V)
  deriving Repr

/-- `Array.__init__`: `size` must be a positive integer (`ValueError`
otherwise; the `isinstance(size, int)` `TypeError` is unreachable in this
typed embedding).  `default_value is None` gives all-`None` items; a list no
longer than `size` (`ValueError` otherwise) becomes the prefix, padded with
`None`; any other single value fills every slot. -/
def Array.init {V : Type} (size : ℤ) (default_value : ArrayArg V) :
    Except ArrError (Array V) :=
  if size ≤ 0 then .error .valueError
  else
    let n := size.toNat
    match default_value with
    | .noneArg => .ok ⟨n, List.replicate n none⟩
    | .listArg l =>
        if n < l.length then .error .valueError
        else .ok ⟨n, l ++ List.replicate (n - l.length) none⟩
    | .valueArg v => .ok ⟨n, List.replicate n (some v)⟩

/-- `Array.get_length`: the number of entries of `items` that are not
`None`. -/
def Array.get_length {V : Type} (a : Array V) : ℕ :=
  a.items.countP (fun x => x.isSome)

/-- The Python loop `for i in range(hi, index, -1): self.items[i] =
self.items[i - 1]`, with `hi` the second argument: iterates `i = hi, hi-1,
..., index+1`, each step copying the entry at `i - 1` into position `i`. -/
def shiftLoop {V : Type} (index : ℕ) :
    List (Option V) → ℕ → List (Option V)
  | items, 0 => items
  | items, i + 1 =>
      if i + 1 ≤ index then items
      else shiftLoop index (items.set (i + 1) (items.getD i none)) i

/-- `Array.insert_first`: raise `ArrayError` if `get_length() >= size`; else
run the shift loop `for i in range(self.get_length(), 0, -1)` and put the
element at index 0.  The element may itself be Python `None`. -/
def Array.insert_first {V : Type} (a : Array V) (element : Option V) :
    Array V × Option ArrError :=
  if a.size ≤ a.get_length then (a, some .arrayError)
  else
    ({ a with items := (shiftLoop 0 a.items a.get_length).set 0 element },
     none)

/-- `Array.insert_at_index`: raise `ArrayError` if full, `IndexError` if
`index < 0 or index > self.get_length()`; else shift
`for i in range(self.get_length(), index, -1)` and put the element at
`index`. -/
def Array.insert_at_index {V : Type} (a : Array V) (index : ℤ)
    (element : Option V) : Array V × Option ArrError :=
  if a.size ≤ a.get_length then (a, some .arrayError)
  else if index < 0 ∨ (a.get_length : ℤ) < index then (a, some .indexError)
  else
    let items' :=
      (shiftLoop index.toNat a.items a.get_length).set index.toNat element
    ({ a with items := items' }, none)

/-- `Array.insert_after_index`: raise `ArrayError` if full, `IndexError` if
`index < 0 or index >= self.get_length()`; else delegate to
`insert_at_index(index + 1, element)`. -/
def Array.insert_after_index {V : Type} (a : Array V) (index : ℤ)
    (element : Option V) : Array V × Option ArrError :=
  if a.size ≤ a.get_length then (a, some .arrayError)
  else if index < 0 ∨ (a.get_length : ℤ) ≤ index then (a, some .indexError)
  else a.insert_at_index (index + 1) element

/-- `Array.insert_before_index`: raise `ArrayError` if full, `IndexError` if
`index < 0 or index > self.get_length()`; else delegate to
`insert_at_index(index, element)`. -/
def Array.insert_before_index {V : Type} (a : Array V) (index : ℤ)
    (element : Option V) : Array V × Option ArrError :=
  if a.size ≤ a.get_length then (a, some .arrayError)
  else if index < 0 ∨ (a.get_length : ℤ) < index then (a, some .indexError)
  else a.insert_at_index index element

/-- Python's `list.index(x)`: the lowest position whose entry equals `x`
(`None == None` holds in Python), or `None` when no entry does (the
`ValueError` branch). -/
def listIndex {V : Type} [DecidableEq V] (x : Option V) :
    List (Option V) → Option ℕ
  | [] => none
  | y :: ys => if y = x then some 0 else (listIndex x ys).map (· + 1)

/-- `Array.delete`: find the first occurrence of the element with
`list.index`; if found, set that slot to `None` and return `True`, else
return `False` with the array untouched. -/
def Array.delete {V : Type} [DecidableEq V] (a : Array V)
    (element : Option V) : Array V × Bool :=
  match listIndex element a.items with
  | some i => ({ a with items := a.items.set i none }, true)
  | none => (a, false)

/-- `Array.search`: the index of the first slot equal to the element, or
`None`. -/
def Array.search {V : Type} [DecidableEq V] (a : Array V)
    (element : Option V) : Option ℕ :=
  listIndex element a.items

/-! ## Shared helper lemmas -/

/-- A deposit call never makes a non-negative balance negative. -/
theorem deposit_fst_balance_nonneg (acct : BankAccount) (amount : Option ℚ)
    (h : 0 ≤ acct.balance) : 0 ≤ (acct.deposit amount).1.balance := by
  rcases amount with _ | a
  · simpa [BankAccount.deposit] using h
  · by_cases h1 : a ≤ 0
    · simpa [BankAccount.deposit, h1] using h
    · simp only [BankAccount.deposit, if_neg h1]
      push_neg at h1
      exact add_nonneg h (le_of_lt h1)

/-- A withdraw call never makes a non-negative balance negative. -/
theorem withdraw_fst_balance_nonneg (acct : BankAccount) (amount : Option ℚ)
    (h : 0 ≤ acct.balance) : 0 ≤ (acct.withdraw amount).1.balance := by
  rcases amount with _ | a
  · simpa [BankAccount.withdraw] using h
  · by_cases h1 : a ≤ 0
    · simpa [BankAccount.withdraw, h1] using h
    · by_cases h2 : acct.balance < a
      · simpa [BankAccount.withdraw, h1, h2] using h
      · simp only [BankAccount.withdraw, if_neg h1, if_neg h2]
        push_neg at h2
        simpa using sub_nonneg.mpr h2

/-! ## C1: withdraw with insufficient funds -/

/-- C1.  If the amount parses as a positive exact decimal strictly greater
than the current balance, `withdraw` fails with `InsufficientFundsError` and
returns the account exactly as it was; and `withdraw` never leaves a
non-negative balance below 0. -/
theorem withdraw_insufficient_funds_preserves_balance :
    (∀ (acct : BankAccount) (a : ℚ), 0 < a → acct.balance < a →
      acct.withdraw (some a) = (acct, .error .insufficientFunds))
    ∧ (∀ (acct : BankAccount) (amount : Option ℚ), 0 ≤ acct.balance →
      0 ≤ (acct.withdraw amount).1.balance) := by
  constructor
  · intro acct a hpos hgt
    simp [BankAccount.withdraw, not_le.mpr hpos, hgt]
  · intro acct amount h
    exact withdraw_fst_balance_nonneg acct amount h

/-- C1 witness: an account with balance 100 on `withdraw(1500)` raises
`InsufficientFundsError` with balance still 100. -/
theorem withdraw_insufficient_funds_preserves_balance_witness :
    (⟨"A", 100, 1000⟩ : BankAccount).withdraw (some 1500) =
      ((⟨"A", 100, 1000⟩ : BankAccount), .error .insufficientFunds)
    ∧ 0 ≤ ((⟨"A", 100, 1000⟩ : BankAccount).withdraw (some 1500)).1.balance :=
  ⟨withdraw_insufficient_funds_preserves_balance.1 _ 1500 (by norm_num)
      (by norm_num),
   withdraw_insufficient_funds_preserves_balance.2 _ _ (by norm_num)⟩

/-! ## C3: the balance is never negative -/

/-- A successful construction yields the validated data: the trimmed name, a
non-negative parsed balance, the current counter as account number, and the
counter advanced by one. -/
theorem mkBankAccount_ok_spec (c : ℕ) (name : String) (initial : Option ℚ)
    (acct : BankAccount) (h : (mkBankAccount c name initial).1 = .ok acct) :
    0 ≤ acct.balance ∧ acct.account_number = c
    ∧ (mkBankAccount c name initial).2 = c + 1 := by
  by_cases hn : pyStrip name = ""
  · simp [mkBankAccount, hn] at h
  · rcases initial with _ | b
    · simp [mkBankAccount, hn] at h
    · by_cases hb : b < 0
      · simp [mkBankAccount, hn, hb] at h
      · simp only [mkBankAccount, if_neg hn, if_neg hb] at h ⊢
        simp only [Except.ok.injEq] at h
        subst h
        exact ⟨not_lt.mp hb, rfl, trivial⟩

/-- A failed construction leaves the counter untouched. -/
theorem mkBankAccount_error_spec (c : ℕ) (name : String)
    (initial : Option ℚ) (e : BankError)
    (h : (mkBankAccount c name initial).1 = .error e) :
    (mkBankAccount c name initial).2 = c := by
  by_cases hn : pyStrip name = ""
  · simp [mkBankAccount, hn]
  · rcases initial with _ | b
    · simp [mkBankAccount, hn]
    · by_cases hb : b < 0
      · simp [mkBankAccount, hn, hb]
      · simp [mkBankAccount, hn, hb] at h

/-- One step of the account system keeps every balance non-negative. -/
theorem stepOp_preserves_nonneg (accts : List BankAccount) (op : AccountOp)
    (h : ∀ x ∈ accts, 0 ≤ x.balance) :
    ∀ x ∈ stepOp accts op, 0 ≤ x.balance := by
  intro x hx
  cases op with
  | depositOp i amt =>
      simp only [stepOp] at hx
      split at hx
      · exact h x hx
      · next a heq =>
          rcases List.mem_or_eq_of_mem_set hx with hmem | rfl
          · exact h x hmem
          · exact deposit_fst_balance_nonneg a amt (h a (List.get?_mem heq))
  | withdrawOp i amt =>
      simp only [stepOp] at hx
      split at hx
      · exact h x hx
      · next a heq =>
          rcases List.mem_or_eq_of_mem_set hx with hmem | rfl
          · exact h x hmem
          · exact withdraw_fst_balance_nonneg a amt (h a (List.get?_mem heq))
  | transferOp i j amt =>
      simp only [stepOp] at hx
      split at hx
      · exact h x hx
      · next s heq =>
          have hs : 0 ≤ s.balance := h s (List.get?_mem heq)
          have hset : ∀ y ∈ accts.set i (s.withdraw amt).1, 0 ≤ y.balance := by
            intro y hy
            rcases List.mem_or_eq_of_mem_set hy with hmem | rfl
            · exact h y hmem
            · exact withdraw_fst_balance_nonneg s amt hs
          split at hx
          · rcases List.mem_or_eq_of_mem_set hx with hmem | rfl
            · exact h x hmem
            · exact withdraw_fst_balance_nonneg s amt hs
          · split at hx
            · exact hset x hx
            · next r heq2 =>
                rcases List.mem_or_eq_of_mem_set hx with hmem | rfl
                · exact hset x hmem
                · exact deposit_fst_balance_nonneg r amt
                    (hset r (List.get?_mem heq2))

/-- Any sequence of operations keeps every balance non-negative. -/
theorem runOps_preserves_nonneg (ops : List AccountOp) :
    ∀ accts : List BankAccount, (∀ x ∈ accts, 0 ≤ x.balance) →
      ∀ x ∈ runOps accts ops, 0 ≤ x.balance := by
  induction ops with
  | nil => intro accts h; simpa [runOps] using h
  | cons op rest ih =>
      intro accts h
      have : runOps accts (op :: rest) = runOps (stepOp accts op) rest := rfl
      rw [this]
      exact ih (stepOp accts op) (stepOp_preserves_nonneg accts op h)

/-- C3.  Every successfully constructed account starts with a non-negative
balance, and every sequence of deposit/withdraw/transfer calls — whether the
individual calls succeed or fail — keeps every account's balance
non-negative. -/
theorem balance_nonneg_invariant :
    (∀ (c : ℕ) (name : String) (initial : Option ℚ) (acct : BankAccount),
      (mkBankAccount c name initial).1 = .ok acct → 0 ≤ acct.balance)
    ∧ (∀ (accts : List BankAccount) (ops : List AccountOp),
      (∀ x ∈ accts, 0 ≤ x.balance) →
      ∀ x ∈ runOps accts ops, 0 ≤ x.balance) :=
  ⟨fun c name initial acct h => (mkBankAccount_ok_spec c name initial acct h).1,
   fun accts ops h => runOps_preserves_nonneg ops accts h⟩

/-- C3 witness: an account constructed with balance 100 and put through a
withdraw of 30, a failing withdraw of 1000 and a deposit of 5 ends with
balance 75, which is non-negative. -/
theorem balance_nonneg_invariant_witness :
    0 ≤ (⟨"A", (75:ℚ), 1000⟩ : BankAccount).balance := by
  refine balance_nonneg_invariant.2 [⟨"A", 100, 1000⟩]
    [.withdrawOp 0 (some 30), .withdrawOp 0 (some 1000),
     .depositOp 0 (some 5)] ?_ _ ?_
  · intro x hx
    rw [List.mem_singleton] at hx
    subst hx
    norm_num
  · show _ ∈ runOps _ _
    norm_num [runOps, stepOp, BankAccount.withdraw, BankAccount.deposit]

/-! ## C6: account numbers are unique and increasing -/

/-- A construction attempt never decreases the counter. -/
theorem mkBankAccount_snd_ge (c : ℕ) (name : String) (initial : Option ℚ) :
    c ≤ (mkBankAccount c name initial).2 := by
  by_cases hn : pyStrip name = ""
  · simp [mkBankAccount, hn]
  · rcases initial with _ | b
    · simp [mkBankAccount, hn]
    · by_cases hb : b < 0
      · simp [mkBankAccount, hn, hb]
      · simp [mkBankAccount, hn, hb]

/-- Any account produced by a run of construction attempts that starts at
counter `c` carries an account number of at least `c`. -/
theorem runConstructions_get_ok_ge (reqs : List (String × Option ℚ)) :
    ∀ (c k : ℕ) (a : BankAccount),
      (runConstructions c reqs).1.get? k = some (.ok a) →
      c ≤ a.account_number := by
  induction reqs with
  | nil =>
      intro c k a h
      simp [runConstructions] at h
  | cons r rest ih =>
      intro c k a h
      obtain ⟨n, b⟩ := r
      simp only [runConstructions] at h
      cases k with
      | zero =>
          simp only [List.get?_cons_zero, Option.some.injEq] at h
          exact le_of_eq (mkBankAccount_ok_spec c n b a h).2.1.symm
      | succ k =>
          simp only [List.get?_cons_succ] at h
          exact le_trans (mkBankAccount_snd_ge c n b)
            (ih (mkBankAccount c n b).2 k a h)

/-- Of two successful constructions in one run, the later one carries the
strictly larger account number. -/
theorem runConstructions_ok_increasing (reqs : List (String × Option ℚ)) :
    ∀ (c i j : ℕ) (a a' : BankAccount), i < j →
      (runConstructions c reqs).1.get? i = some (.ok a) →
      (runConstructions c reqs).1.get? j = some (.ok a') →
      a.account_number < a'.account_number := by
  induction reqs with
  | nil =>
      intro c i j a a' hij hi hj
      simp [runConstructions] at hi
  | cons r rest ih =>
      intro c i j a a' hij hi hj
      obtain ⟨n, b⟩ := r
      obtain ⟨j', rfl⟩ : ∃ j', j = j' + 1 := ⟨j - 1, by omega⟩
      simp only [runConstructions, List.get?_cons_succ] at hi hj
      cases i with
      | zero =>
          simp only [List.get?_cons_zero, Option.some.injEq] at hi
          have hspec := mkBankAccount_ok_spec c n b a hi
          have hge := runConstructions_get_ok_ge rest (mkBankAccount c n b).2
            j' a' hj
          rw [hspec.2.2] at hge
          omega
      | succ i' =>
          simp only [List.get?_cons_succ] at hi
          exact ih (mkBankAccount c n b).2 i' j' a a' (by omega) hi hj

/-- C6.  The shared counter starts at 1000; a failed construction leaves it
untouched; a successful construction takes the current counter as its
account number and advances the counter; hence of any two successful
constructions performed in sequence the second has a strictly larger
account number (in particular they never share one). -/
theorem account_number_unique_increasing :
    initialAccountNumber = 1000
    ∧ (∀ (c : ℕ) (name : String) (initial : Option ℚ) (e : BankError),
        (mkBankAccount c name initial).1 = .error e →
        (mkBankAccount c name initial).2 = c)
    ∧ (∀ (c : ℕ) (name : String) (initial : Option ℚ) (acct : BankAccount),
        (mkBankAccount c name initial).1 = .ok acct →
        acct.account_number = c ∧ (mkBankAccount c name initial).2 = c + 1)
    ∧ (∀ (reqs : List (String × Option ℚ)) (c i j : ℕ)
        (a a' : BankAccount), i < j →
        (runConstructions c reqs).1.get? i = some (.ok a) →
        (runConstructions c reqs).1.get? j = some (.ok a') →
        a.account_number < a'.account_number) :=
  ⟨rfl, mkBankAccount_error_spec,
   fun c name initial acct h =>
     ⟨(mkBankAccount_ok_spec c name initial acct h).2.1,
      (mkBankAccount_ok_spec c name initial acct h).2.2⟩,
   runConstructions_ok_increasing⟩

/-- C6 witness: constructing Alice, then failing on a blank name (which does
not consume an id), then constructing Bob, yields ids 1000 and 1001. -/
theorem account_number_unique_increasing_witness :
    (⟨"Alice", 1000, 1000⟩ : BankAccount).account_number
      < (⟨"Bob", 500, 1001⟩ : BankAccount).account_number :=
  account_number_unique_increasing.2.2.2
    [("Alice", some 1000), ("", some 5), ("Bob", some 500)]
    initialAccountNumber 0 2 _ _ (by norm_num) rfl rfl

/-! ## C7: every insert on a full array raises Full -/

/-- C7.  On an array whose logical length equals its capacity, all four
insert operations fail with `ArrayError` ("array is full") before looking at
the index, for every index argument — even one that is itself out of range —
and return the array unchanged. -/
theorem insert_full_raises {V : Type} (a : Array V) (e : Option V)
    (h : a.get_length = a.size) :
    a.insert_first e = (a, some .arrayError)
    ∧ (∀ i : ℤ, a.insert_at_index i e = (a, some .arrayError))
    ∧ (∀ i : ℤ, a.insert_after_index i e = (a, some .arrayError))
    ∧ (∀ i : ℤ, a.insert_before_index i e = (a, some .arrayError)) := by
  have hfull : a.size ≤ a.get_length := le_of_eq h.symm
  exact ⟨by simp [Array.insert_first, hfull],
    fun i => by simp [Array.insert_at_index, hfull],
    fun i => by simp [Array.insert_after_index, hfull],
    fun i => by simp [Array.insert_before_index, hfull]⟩

/-- C7 witness: a full one-slot array rejects all four inserts at index 5
(out of range) with the full-array error and stays unchanged. -/
theorem insert_full_raises_witness :
    (⟨1, [some (0:ℤ)]⟩ : Array ℤ).insert_first (some 9)
      = (⟨1, [some 0]⟩, some .arrayError)
    ∧ (⟨1, [some (0:ℤ)]⟩ : Array ℤ).insert_at_index 5 (some 9)
      = (⟨1, [some 0]⟩, some .arrayError)
    ∧ (⟨1, [some (0:ℤ)]⟩ : Array ℤ).insert_after_index 5 (some 9)
      = (⟨1, [some 0]⟩, some .arrayError)
    ∧ (⟨1, [some (0:ℤ)]⟩ : Array ℤ).insert_before_index 5 (some 9)
      = (⟨1, [some 0]⟩, some .arrayError) :=
  ⟨(insert_full_raises ⟨1, [some 0]⟩ (some 9) (by decide)).1,
   (insert_full_raises ⟨1, [some 0]⟩ (some 9) (by decide)).2.1 5,
   (insert_full_raises ⟨1, [some 0]⟩ (some 9) (by decide)).2.2.1 5,
   (insert_full_raises ⟨1, [some 0]⟩ (some 9) (by decide)).2.2.2 5⟩

/-! ## C5: constructor fill semantics -/

/-- C5 counterexample: constructing with capacity 3 and a fill value equal to
the empty marker (Python `None`, the claim's "value equal to the empty
marker") succeeds but leaves every slot empty, so `get_length` is 0, not the
capacity 3: the `default_value is None` test in `Array.__init__` cannot tell
an explicit `None` fill from the absent default. -/
theorem fill_value_counterexample :
    Array.init 3 (ArrayArg.noneArg : ArrayArg ℤ)
      = .ok ⟨3, [none, none, none]⟩
    ∧ (⟨3, [none, none, none]⟩ : Array ℤ).get_length = 0
    ∧ (0 : ℕ) ≠ 3 :=
  ⟨rfl, rfl, by decide⟩

/-- C5 (amended).  For a positive capacity `c`: a single non-list fill value
*distinct from the empty marker* is replicated into every slot, so the
logical length equals the capacity immediately after construction; a fill
value equal to the empty marker (`None`) is instead treated as the absent
default, leaving every slot empty with logical length 0. -/
theorem fill_value_amended {V : Type} (c : ℤ) (v : V) (hc : 0 < c) :
    (∃ arr : Array V, Array.init c (.valueArg v) = .ok arr
      ∧ arr.items = List.replicate c.toNat (some v)
      ∧ arr.get_length = c.toNat)
    ∧ (∃ arr : Array V, Array.init c (.noneArg : ArrayArg V) = .ok arr
      ∧ arr.get_length = 0) := by
  have hc' : ¬ c ≤ 0 := not_le.mpr hc
  constructor
  · refine ⟨⟨c.toNat, List.replicate c.toNat (some v)⟩,
      by simp [Array.init, hc'], rfl, ?_⟩
    simp [Array.get_length, List.countP_replicate]
  · refine ⟨⟨c.toNat, List.replicate c.toNat none⟩,
      by simp [Array.init, hc'], ?_⟩
    simp [Array.get_length, List.countP_replicate]

/-- C5 witness: capacity 3 filled with the single value 7 has every slot set
and logical length 3, while capacity 3 with a `None` fill has logical
length 0. -/
theorem fill_value_amended_witness :
    (∃ arr : Array ℤ, Array.init 3 (.valueArg (7:ℤ)) = .ok arr
      ∧ arr.items = List.replicate 3 (some 7)
      ∧ arr.get_length = 3)
    ∧ (∃ arr : Array ℤ, Array.init 3 (.noneArg : ArrayArg ℤ) = .ok arr
      ∧ arr.get_length = 0) :=
  fill_value_amended 3 (7:ℤ) (by norm_num)

/-! ## C8: insert_at_index bounds -/

/-- C8.  On a non-full array, `insert_at_index` raises `IndexError` exactly
when `index < 0` or `index > get_length()`; in particular the boundary index
`index = get_length()` is always accepted (an append) and raises nothing. -/
theorem insert_at_index_range {V : Type} (a : Array V) (i : ℤ)
    (e : Option V) (h : a.get_length < a.size) :
    ((a.insert_at_index i e).2 = some .indexError
      ↔ (i < 0 ∨ (a.get_length : ℤ) < i))
    ∧ (a.insert_at_index (a.get_length : ℤ) e).2 = none := by
  have hfull : ¬ a.size ≤ a.get_length := not_le.mpr h
  constructor
  · by_cases hi : i < 0 ∨ (a.get_length : ℤ) < i
    · simp [Array.insert_at_index, hfull, hi]
    · simp [Array.insert_at_index, hfull, hi]
  · have h0 : ¬ ((a.get_length : ℤ) < 0) := not_lt.mpr (Int.natCast_nonneg _)
    simp [Array.insert_at_index, hfull, h0]

/-- C8 witness: on a non-full array of capacity 2 with one element, index 5
raises `IndexError` while the boundary index `get_length() = 1` is
accepted. -/
theorem insert_at_index_range_witness :
    ((⟨2, [some (5:ℤ), none]⟩ : Array ℤ).insert_at_index 5 (some 7)).2
      = some .indexError
    ∧ ((⟨2, [some (5:ℤ), none]⟩ : Array ℤ).insert_at_index
        (((⟨2, [some (5:ℤ), none]⟩ : Array ℤ).get_length : ℤ)) (some 7)).2
      = none :=
  ⟨(insert_at_index_range ⟨2, [some 5, none]⟩ 5 (some 7) (by decide)).1.mpr
      (by decide),
   (insert_at_index_range ⟨2, [some 5, none]⟩ 5 (some 7) (by decide)).2⟩

/-! ## C9: delete blanks the first match only -/

/-- `list.index` finds nothing exactly when no entry equals the target. -/
theorem listIndex_eq_none_iff {V : Type} [DecidableEq V] (x : Option V)
    (l : List (Option V)) :
    listIndex x l = none ↔ ∀ y ∈ l, y ≠ x := by
  induction l with
  | nil => simp [listIndex]
  | cons z zs ih =>
      by_cases hz : z = x
      · simp [listIndex, hz]
      · simp [listIndex, hz, Option.map_eq_none', ih]

/-- `list.index` returns the first matching position. -/
theorem listIndex_first_match {V : Type} [DecidableEq V] (x : Option V)
    (l : List (Option V)) :
    ∀ i : ℕ, i < l.length → l.getD i none = x →
      (∀ j, j < i → l.getD j none ≠ x) → listIndex x l = some i := by
  induction l with
  | nil =>
      intro i hi _ _
      simp at hi
  | cons z zs ih =>
      intro i hi hget hfirst
      by_cases hz : z = x
      · cases i with
        | zero => simp [listIndex, hz]
        | succ i' =>
            have h0 := hfirst 0 (by omega)
            rw [List.getD_cons_zero] at h0
            exact absurd hz h0
      · cases i with
        | zero =>
            rw [List.getD_cons_zero] at hget
            exact absurd hget hz
        | succ i' =>
            have htl := ih i' (by simpa using Nat.lt_of_succ_lt_succ hi)
              (by simpa using hget)
              (fun j hj => by
                have := hfirst (j + 1) (by omega)
                simpa using this)
            simp [listIndex, hz, htl]

/-- C9.  `delete(value)` scans for the first slot equal to the value: when no
slot matches it returns `False` with the array untouched; when slot `i` is
the first match it blanks exactly that slot, returns `True`, and every other
slot (before or after, empty or not) keeps its previous content — no
compaction or shifting happens. -/
theorem delete_first_match {V : Type} [DecidableEq V] (a : Array V)
    (e : Option V) :
    ((∀ y ∈ a.items, y ≠ e) → a.delete e = (a, false))
    ∧ (∀ i : ℕ, i < a.items.length → a.items.getD i none = e →
        (∀ j, j < i → a.items.getD j none ≠ e) →
        a.delete e = ({ a with items := a.items.set i none }, true)
        ∧ ∀ k, k ≠ i →
            (a.items.set i none).getD k none = a.items.getD k none) := by
  constructor
  · intro h
    have hnone := (listIndex_eq_none_iff e a.items).mpr h
    simp [Array.delete, hnone]
  · intro i hlen hget hfirst
    have hidx := listIndex_first_match e a.items i hlen hget hfirst
    refine ⟨by simp [Array.delete, hidx], ?_⟩
    intro k hk
    simp [List.getD, List.getElem?_set_ne (Ne.symm hk)]

/-- C9 witness: deleting 2 from `[1, 2, 3]` blanks the middle slot only,
returns `True`, and leaves slots 0 and 2 unchanged; deleting the then-first
empty marker slot is itself possible. -/
theorem delete_first_match_witness :
    (⟨3, [some (1:ℤ), some 2, some 3]⟩ : Array ℤ).delete (some 2)
      = (⟨3, [some 1, none, some 3]⟩, true)
    ∧ ((⟨3, [some (1:ℤ), some 2, some 3]⟩ : Array ℤ).items.set 1
        none).getD 2 none = some 3 := by
  have h := (delete_first_match (⟨3, [some (1:ℤ), some 2, some 3]⟩ : Array ℤ)
    (some 2)).2 1 (by decide) (by decide)
    (fun j hj => by
      have hj0 : j = 0 := by omega
      subst hj0
      decide)
  exact ⟨h.1, h.2 2 (by decide)⟩

/-! ## C10: insert after a mid-array delete loses the trailing element -/

/-- The shift loop only overwrites entries in place: the length of the
backing list never changes. -/
theorem shiftLoop_length {V : Type} (index : ℕ) :
    ∀ (items : List (Option V)) (hi : ℕ),
      (shiftLoop index items hi).length = items.length := by
  intro items hi
  induction hi generalizing items with
  | zero => rw [shiftLoop]
  | succ i ih =>
      rw [shiftLoop]
      by_cases hle : i + 1 ≤ index
      · rw [if_pos hle]
      · rw [if_neg hle, ih]
        simp

/-- The shift loop `for i in range(hi, index, -1)` moves each entry of the
physical slice `(index, hi]` one position up from its predecessor (the copies
run top-down, so every read sees the original list), and leaves every other
position untouched. -/
theorem shiftLoop_getD {V : Type} (index : ℕ) :
    ∀ (items : List (Option V)) (hi : ℕ), hi < items.length → ∀ k : ℕ,
      (shiftLoop index items hi).getD k none =
        if index < k ∧ k ≤ hi then items.getD (k - 1) none
        else items.getD k none := by
  intro items hi
  induction hi generalizing items with
  | zero =>
      intro _ k
      rw [shiftLoop, if_neg (by omega)]
  | succ i ih =>
      intro hhi k
      rw [shiftLoop]
      by_cases hle : i + 1 ≤ index
      · rw [if_pos hle, if_neg (by omega)]
      · rw [if_neg hle]
        have hlen : i < (items.set (i + 1) (items.getD i none)).length := by
          simp
          omega
        rw [ih (items.set (i + 1) (items.getD i none)) hlen k]
        by_cases hk : index < k ∧ k ≤ i
        · rw [if_pos hk, if_pos (by omega)]
          simp [List.getD, List.getElem?_set_ne (show i + 1 ≠ k - 1 by omega)]
        · by_cases hk2 : k = i + 1
          · subst hk2
            rw [if_neg (by omega), if_pos (by omega)]
            simp [List.getD, List.getElem?_set_self, hhi]
          · rw [if_neg hk, if_neg (by omega)]
            simp [List.getD,
              List.getElem?_set_ne (show i + 1 ≠ k from fun h => hk2 h.symm)]

/-- C10.  On an array holding a stale empty hole strictly below the logical
length (as a mid-array delete leaves behind), a successful `insert_first`
raises nothing and yields the slots: the new element at 0, the old slots
`[0, get_length)` shifted up one position — so the slot at index
`get_length` is overwritten by the element shifted from `get_length - 1`,
and whatever was stored there before is dropped — and the slots above
`get_length` unchanged. -/
theorem insert_first_after_hole {V : Type} (a : Array V) (e : Option V)
    (hlen : a.items.length = a.size)
    (hnotfull : a.get_length < a.size)
    (hole : ∃ i, i < a.get_length ∧ a.items.getD i none = none) :
    (a.insert_first e).2 = none
    ∧ ∀ k : ℕ, (a.insert_first e).1.items.getD k none =
        if k = 0 then e
        else if k ≤ a.get_length then a.items.getD (k - 1) none
        else a.items.getD k none := by
  have hfull : ¬ a.size ≤ a.get_length := not_le.mpr hnotfull
  constructor
  · simp [Array.insert_first, hfull]
  · intro k
    have hLlen : a.get_length < a.items.length := by omega
    simp only [Array.insert_first, if_neg hfull]
    by_cases hk0 : k = 0
    · subst hk0
      have h0 : 0 < ((shiftLoop 0 a.items a.get_length)).length := by
        rw [shiftLoop_length]
        omega
      simp [List.getD, List.getElem?_set_self, h0]
    · have hset : ((shiftLoop 0 a.items a.get_length).set 0 e).getD k none
          = (shiftLoop 0 a.items a.get_length).getD k none := by
        simp [List.getD, List.getElem?_set_ne (show 0 ≠ k from fun h =>
          hk0 h.symm)]
      rw [hset, shiftLoop_getD 0 a.items a.get_length hLlen k,
        if_neg hk0]
      by_cases hk : k ≤ a.get_length
      · rw [if_pos (by omega), if_pos hk]
      · rw [if_neg (by omega), if_neg hk]

/-- C10 witness: with capacity 3 and slots `[1, empty, 3]` (as left by
deleting 2 from `[1, 2, 3]`), `insert_first(9)` succeeds and yields slots
`[9, 1, empty]`: the 3 previously at index `get_length = 2` no longer occurs
anywhere. -/
theorem insert_first_after_hole_witness :
    ((⟨3, [some (1:ℤ), none, some 3]⟩ : Array ℤ).insert_first (some 9)).2
      = none
    ∧ ((⟨3, [some (1:ℤ), none, some 3]⟩ : Array ℤ).insert_first
        (some 9)).1.items = [some 9, some 1, none]
    ∧ (some 3) ∉ ((⟨3, [some (1:ℤ), none, some 3]⟩ : Array ℤ).insert_first
        (some 9)).1.items := by
  have h := insert_first_after_hole (⟨3, [some (1:ℤ), none, some 3]⟩ :
    Array ℤ) (some 9) (by decide) (by decide) ⟨1, by decide, rfl⟩
  exact ⟨h.1, by decide, by decide⟩

/-! ## Decimal context lemmas -/

/-- With enough fuel, `digitLenAux` counts base-10 digits: `10^(len-1) ≤ n <
10^len`. -/
theorem digitLenAux_spec :
    ∀ (fuel n : ℕ), 1 ≤ n → n ≤ fuel →
      10 ^ (digitLenAux fuel n - 1) ≤ n ∧ n < 10 ^ digitLenAux fuel n := by
  intro fuel
  induction fuel with
  | zero => intro n h1 h2; omega
  | succ fuel ih =>
      intro n h1 h2
      rw [digitLenAux]
      by_cases h10 : n < 10
      · rw [if_pos h10]
        simp
        omega
      · rw [if_neg h10]
        have hm1 : 1 ≤ n / 10 := by omega
        have hm2 : n / 10 ≤ fuel := by omega
        obtain ⟨ha, hb⟩ := ih (n / 10) hm1 hm2
        have hL1 : 1 ≤ digitLenAux fuel (n / 10) := by
          rcases Nat.eq_zero_or_pos (digitLenAux fuel (n / 10)) with h | h
          · rw [h] at hb
            omega
          · exact h
        have hdiv := Nat.div_add_mod n 10
        have hmod := Nat.mod_lt n (show 0 < 10 by norm_num)
        constructor
        · have h10 : (10:ℕ) ^ digitLenAux fuel (n / 10)
              = 10 ^ (digitLenAux fuel (n / 10) - 1) * 10 := by
            rw [← pow_succ, Nat.sub_add_cancel hL1]
          rw [Nat.add_sub_cancel, h10]
          omega
        · rw [pow_succ]
          omega

/-- `digitLen` counts base-10 digits: `10^(len-1) ≤ n < 10^len` for `n ≥ 1`
(in particular `len ≥ 1`). -/
theorem digitLen_spec (n : ℕ) (hn : 1 ≤ n) :
    10 ^ (digitLen n - 1) ≤ n ∧ n < 10 ^ digitLen n ∧ 1 ≤ digitLen n := by
  obtain ⟨h1, h2⟩ := digitLenAux_spec n n hn le_rfl
  refine ⟨h1, h2, ?_⟩
  rcases Nat.eq_zero_or_pos (digitLen n) with h | h
  · rw [digitLen] at *
    rw [h] at h2
    omega
  · exact h

/-- `ratAdjExp` of a positive rational is its adjusted exponent:
`10^e ≤ q < 10^(e+1)`. -/
theorem ratAdjExp_spec (q : ℚ) (hq : 0 < q) :
    (10:ℚ) ^ ratAdjExp q ≤ q ∧ q < (10:ℚ) ^ (ratAdjExp q + 1) := by
  have hnum : 0 < q.num := Rat.num_pos.mpr hq
  have hn1 : 1 ≤ q.num.natAbs := by omega
  have hd1 : 1 ≤ q.den := q.den_pos
  obtain ⟨hna, hnb, hln1⟩ := digitLen_spec q.num.natAbs hn1
  obtain ⟨hda, hdb, hld1⟩ := digitLen_spec q.den hd1
  have hq_eq : q = (q.num.natAbs : ℚ) / (q.den : ℚ) := by
    conv_lhs => rw [← Rat.num_div_den q]
    rw [Int.cast_natAbs, abs_of_pos hnum]
  have hdenpos : (0:ℚ) < (q.den : ℚ) := by exact_mod_cast hd1
  have hnpos : (0:ℚ) < (q.num.natAbs : ℚ) := by exact_mod_cast hn1
  -- upper bound: q < 10 ^ (k + 1)
  have hupper : q < (10:ℚ) ^ ((digitLen q.num.natAbs : ℤ)
      - (digitLen q.den : ℤ) + 1) := by
    have h1 : (q.num.natAbs : ℚ) < (10:ℚ) ^ (digitLen q.num.natAbs : ℕ) := by
      exact_mod_cast hnb
    have h2 : (10:ℚ) ^ (digitLen q.den - 1 : ℕ) ≤ (q.den : ℚ) := by
      exact_mod_cast hda
    have hp : (0:ℚ) < (10:ℚ) ^ (digitLen q.den - 1 : ℕ) := by positivity
    have step1 : q ≤ (q.num.natAbs : ℚ) / (10:ℚ) ^ (digitLen q.den - 1 : ℕ) := by
      calc q = (q.num.natAbs : ℚ) / (q.den : ℚ) := hq_eq
        _ ≤ _ := div_le_div_of_nonneg_left hnpos.le hp h2
    have step2 : (q.num.natAbs : ℚ) / (10:ℚ) ^ (digitLen q.den - 1 : ℕ)
        < (10:ℚ) ^ (digitLen q.num.natAbs : ℕ)
          / (10:ℚ) ^ (digitLen q.den - 1 : ℕ) :=
      div_lt_div_of_pos_right h1 hp
    have hzp : (10:ℚ) ^ (digitLen q.num.natAbs : ℕ)
        / (10:ℚ) ^ (digitLen q.den - 1 : ℕ)
        = (10:ℚ) ^ ((digitLen q.num.natAbs : ℤ) - (digitLen q.den : ℤ) + 1) := by
      rw [← zpow_natCast (10:ℚ) (digitLen q.num.natAbs),
        ← zpow_natCast (10:ℚ) (digitLen q.den - 1),
        ← zpow_sub₀ (by norm_num : (10:ℚ) ≠ 0)]
      congr 1
      omega
    calc q ≤ _ := step1
      _ < _ := step2
      _ = _ := hzp
  -- lower bound: 10 ^ (k - 1) < q
  have hlower : (10:ℚ) ^ ((digitLen q.num.natAbs : ℤ)
      - (digitLen q.den : ℤ) - 1) < q := by
    have h1 : (10:ℚ) ^ (digitLen q.num.natAbs - 1 : ℕ)
        ≤ (q.num.natAbs : ℚ) := by exact_mod_cast hna
    have h2 : (q.den : ℚ) < (10:ℚ) ^ (digitLen q.den : ℕ) := by
      exact_mod_cast hdb
    have hp : (0:ℚ) < (10:ℚ) ^ (digitLen q.den : ℕ) := by positivity
    have step1 : (q.num.natAbs : ℚ) / (10:ℚ) ^ (digitLen q.den : ℕ) < q := by
      calc (q.num.natAbs : ℚ) / (10:ℚ) ^ (digitLen q.den : ℕ)
          < (q.num.natAbs : ℚ) / (q.den : ℚ) :=
            div_lt_div_of_pos_left hnpos hdenpos h2
        _ = q := hq_eq.symm
    have step2 : (10:ℚ) ^ (digitLen q.num.natAbs - 1 : ℕ)
        / (10:ℚ) ^ (digitLen q.den : ℕ)
        ≤ (q.num.natAbs : ℚ) / (10:ℚ) ^ (digitLen q.den : ℕ) := by
      gcongr
    have hzp : (10:ℚ) ^ (digitLen q.num.natAbs - 1 : ℕ)
        / (10:ℚ) ^ (digitLen q.den : ℕ)
        = (10:ℚ) ^ ((digitLen q.num.natAbs : ℤ) - (digitLen q.den : ℤ) - 1) := by
      rw [← zpow_natCast (10:ℚ) (digitLen q.num.natAbs - 1),
        ← zpow_natCast (10:ℚ) (digitLen q.den),
        ← zpow_sub₀ (by norm_num : (10:ℚ) ≠ 0)]
      congr 1
      omega
    calc (10:ℚ) ^ ((digitLen q.num.natAbs : ℤ) - (digitLen q.den : ℤ) - 1)
        = _ := hzp.symm
      _ ≤ _ := step2
      _ < q := step1
  rw [ratAdjExp]
  by_cases hcase : (10:ℚ) ^ ((digitLen q.num.natAbs : ℤ)
      - (digitLen q.den : ℤ)) ≤ q
  · rw [if_pos hcase]
    exact ⟨hcase, hupper⟩
  · rw [if_neg hcase]
    push_neg at hcase
    refine ⟨hlower.le, ?_⟩
    have hexp : (digitLen q.num.natAbs : ℤ) - (digitLen q.den : ℤ) - 1 + 1
        = (digitLen q.num.natAbs : ℤ) - (digitLen q.den : ℤ) := by ring
    rw [hexp]
    exact hcase

/-- `ratAdjExp` is determined by the sandwich `10^e ≤ q < 10^(e+1)`. -/
theorem ratAdjExp_unique (q : ℚ) (e : ℤ) (hq : 0 < q)
    (h1 : (10:ℚ) ^ e ≤ q) (h2 : q < (10:ℚ) ^ (e + 1)) : ratAdjExp q = e := by
  obtain ⟨l, u⟩ := ratAdjExp_spec q hq
  by_contra hne
  rcases lt_or_gt_of_ne hne with h | h
  · have : (10:ℚ) ^ (ratAdjExp q + 1) ≤ (10:ℚ) ^ e :=
      zpow_le_zpow_right₀ (by norm_num) (by omega)
    linarith
  · have : (10:ℚ) ^ (e + 1) ≤ (10:ℚ) ^ ratAdjExp q :=
      zpow_le_zpow_right₀ (by norm_num) (by omega)
    linarith

/-- Sandwiching a positive rational inside a 28-digit window bounds its
adjusted exponent. -/
theorem ratAdjExp_bounds (q : ℚ) (hq : 0 < q) (d : ℤ)
    (h1 : (10:ℚ) ^ d ≤ q) (h2 : q < (10:ℚ) ^ (d + 28)) :
    d ≤ ratAdjExp q ∧ ratAdjExp q ≤ d + 27 := by
  obtain ⟨l, u⟩ := ratAdjExp_spec q hq
  constructor
  · by_contra h
    push_neg at h
    have : (10:ℚ) ^ (ratAdjExp q + 1) ≤ (10:ℚ) ^ d :=
      zpow_le_zpow_right₀ (by norm_num) (by omega)
    linarith
  · by_contra h
    push_neg at h
    have : (10:ℚ) ^ (d + 28) ≤ (10:ℚ) ^ ratAdjExp q :=
      zpow_le_zpow_right₀ (by norm_num) (by omega)
    linarith

/-- Half-even rounding returns integers unchanged. -/
theorem roundHalfEven_intCast (n : ℤ) : roundHalfEven (n : ℚ) = n := by
  simp only [roundHalfEven, Int.floor_intCast]
  norm_num

/-- The absolute value of `m * 10^d` with `m` of at most 28 digits sits in
the window `[10^d, 10^(d+28))`. -/
theorem abs_int_mul_zpow_bounds (m d : ℤ) (hm0 : m ≠ 0)
    (hm : m.natAbs < 10 ^ decPrec) :
    (10:ℚ) ^ d ≤ |(m:ℚ) * (10:ℚ) ^ d|
    ∧ |(m:ℚ) * (10:ℚ) ^ d| < (10:ℚ) ^ (d + 28) := by
  have hzp : (0:ℚ) < (10:ℚ) ^ d := zpow_pos (by norm_num) d
  have habs : |(m:ℚ) * (10:ℚ) ^ d| = (m.natAbs : ℚ) * (10:ℚ) ^ d := by
    rw [abs_mul, abs_of_pos hzp]
    congr 1
    rw [Int.cast_natAbs, Int.cast_abs]
  have h1 : (1:ℚ) ≤ (m.natAbs : ℚ) := by
    exact_mod_cast (show 1 ≤ m.natAbs by omega)
  have h2 : (m.natAbs : ℚ) < (10:ℚ) ^ (28:ℕ) := by
    exact_mod_cast (show m.natAbs < 10 ^ (28:ℕ) from hm)
  constructor
  · rw [habs]
    exact le_mul_of_one_le_left hzp.le h1
  · rw [habs]
    have hz : (10:ℚ) ^ (28:ℕ) * (10:ℚ) ^ d = (10:ℚ) ^ (d + 28) := by
      rw [← zpow_natCast (10:ℚ) 28, ← zpow_add₀ (by norm_num : (10:ℚ) ≠ 0)]
      congr 1
      omega
    rw [← hz]
    exact mul_lt_mul_of_pos_right h2 hzp

/-- `decRound` is the identity on a value of at most 28 significant digits
whose quantum is at least `Etiny`. -/
theorem decRound_eq_self (m d : ℤ) (hm : m.natAbs < 10 ^ decPrec)
    (hd : decEtiny ≤ d) :
    decRound ((m : ℚ) * (10:ℚ) ^ d) = (m : ℚ) * (10:ℚ) ^ d := by
  by_cases hm0 : m = 0
  · subst hm0
    simp [decRound]
  · have hq0 : (m:ℚ) * (10:ℚ) ^ d ≠ 0 :=
      mul_ne_zero (Int.cast_ne_zero.mpr hm0) (zpow_ne_zero d (by norm_num))
    rw [decRound, if_neg hq0]
    obtain ⟨hb1, hb2⟩ := abs_int_mul_zpow_bounds m d hm0 hm
    have habs_pos : 0 < |(m:ℚ) * (10:ℚ) ^ d| := abs_pos.mpr hq0
    obtain ⟨he1, he2⟩ := ratAdjExp_bounds _ habs_pos d hb1 hb2
    set e := ratAdjExp |(m:ℚ) * (10:ℚ) ^ d| with hedef
    set d' := (e - (decPrec:ℤ) + 1) ⊔ decEtiny with hd'def
    have hprec : ((decPrec : ℕ) : ℤ) = 28 := rfl
    have hd'le : d' ≤ d := max_le (by omega) hd
    have hk : (m:ℚ) * (10:ℚ) ^ d / (10:ℚ) ^ d'
        = ((m * 10 ^ (d - d').toNat : ℤ) : ℚ) := by
      push_cast
      rw [← zpow_natCast (10:ℚ) ((d - d').toNat),
        Int.toNat_of_nonneg (by omega : (0:ℤ) ≤ d - d'),
        zpow_sub₀ (by norm_num : (10:ℚ) ≠ 0)]
      ring
    rw [hk, roundHalfEven_intCast]
    push_cast
    rw [← zpow_natCast (10:ℚ) ((d - d').toNat),
      Int.toNat_of_nonneg (by omega : (0:ℤ) ≤ d - d'),
      mul_assoc, ← zpow_add₀ (by norm_num : (10:ℚ) ≠ 0)]
    congr 1
    ring

/-- A value of at most 28 significant digits whose quantum is at most
`Emax - prec + 1` does not overflow. -/
theorem ratAdjExp_le_decEmax (m d : ℤ) (hm0 : m ≠ 0)
    (hm : m.natAbs < 10 ^ decPrec) (hd2 : d ≤ decEmax - decPrec + 1) :
    ratAdjExp |(m:ℚ) * (10:ℚ) ^ d| ≤ decEmax := by
  have hq0 : (m:ℚ) * (10:ℚ) ^ d ≠ 0 :=
    mul_ne_zero (Int.cast_ne_zero.mpr hm0) (zpow_ne_zero d (by norm_num))
  obtain ⟨hb1, hb2⟩ := abs_int_mul_zpow_bounds m d hm0 hm
  obtain ⟨he1, he2⟩ := ratAdjExp_bounds _ (abs_pos.mpr hq0) d hb1 hb2
  have hprec : ((decPrec : ℕ) : ℤ) = 28 := rfl
  omega

/-- On a representable value, `decRound` is the identity and the overflow
test fails. -/
theorem decRound_id_no_overflow (q : ℚ) (h : DecRepresentable q) :
    decRound q = q
    ∧ ¬(decRound q ≠ 0 ∧ decEmax < ratAdjExp |decRound q|) := by
  obtain ⟨m, d, hq, hm, hd1, hd2⟩ := h
  by_cases hm0 : m = 0
  · have hq0 : q = 0 := by
      rw [hq, hm0]
      norm_num
    subst hq0
    simp [decRound]
  · have hself : decRound q = q := by
      rw [hq]
      exact decRound_eq_self m d hm hd1
    refine ⟨hself, ?_⟩
    rintro ⟨-, hlt⟩
    rw [hself, hq] at hlt
    exact absurd hlt (not_lt.mpr (ratAdjExp_le_decEmax m d hm0 hm hd2))

/-- Decimal addition of two values with a representable exact sum is exact
and does not overflow. -/
theorem decAdd_of_representable (x y : ℚ) (h : DecRepresentable (x + y)) :
    decAdd x y = some (x + y) := by
  obtain ⟨hself, hno⟩ := decRound_id_no_overflow (x + y) h
  rw [decAdd, if_neg hno, hself]

/-- Decimal subtraction of two values with a representable exact difference
is exact and does not overflow. -/
theorem decSub_of_representable (x y : ℚ) (h : DecRepresentable (x - y)) :
    decSub x y = some (x - y) := by
  obtain ⟨hself, hno⟩ := decRound_id_no_overflow (x - y) h
  rw [decSub, if_neg hno, hself]

/-- A successful decimal addition returns the rounded exact sum. -/
theorem decAdd_eq_some (x y r : ℚ) (h : decAdd x y = some r) :
    r = decRound (x + y) := by
  rw [decAdd] at h
  split at h
  · exact absurd h (by simp)
  · exact (Option.some.inj h).symm

/-- A successful decimal subtraction returns the rounded exact difference. -/
theorem decSub_eq_some (x y r : ℚ) (h : decSub x y = some r) :
    r = decRound (x - y) := by
  rw [decSub] at h
  split at h
  · exact absurd h (by simp)
  · exact (Option.some.inj h).symm

/-- Evaluation of `roundHalfEven` when the fractional part is below one
half. -/
theorem roundHalfEven_of_floor_lt_half (x : ℚ) (f : ℤ) (hf : ⌊x⌋ = f)
    (h : x - f < 1/2) : roundHalfEven x = f := by
  simp only [roundHalfEven, hf, if_pos h]

/-- Evaluation of `roundHalfEven` at a tie below an odd floor: the tie goes
up to the even neighbour. -/
theorem roundHalfEven_tie_odd (x : ℚ) (f : ℤ) (hf : ⌊x⌋ = f)
    (h : x - f = 1/2) (hodd : f % 2 = 1) : roundHalfEven x = f + 1 := by
  simp only [roundHalfEven, hf, h]
  rw [if_neg (by norm_num), if_neg (by norm_num), if_neg (by omega)]

/-- Evaluation of `decRound` from an adjusted exponent, a quantum and a
half-even rounding of the scaled value. -/
theorem decRound_concrete (q : ℚ) (e d' f : ℤ) (hq0 : 0 < q)
    (he : ratAdjExp q = e)
    (hd' : (e - (decPrec:ℤ) + 1) ⊔ decEtiny = d')
    (hr : roundHalfEven (q / (10:ℚ) ^ d') = f) :
    decRound q = (f : ℚ) * (10:ℚ) ^ d' := by
  rw [decRound, if_neg (ne_of_gt hq0), abs_of_pos hq0, he, hd', hr]

/-! ## C4: deposit/withdraw round trip under the decimal context -/

/-- C4 counterexample: on balance `1E+28` (a Decimal value Python accepts at
construction), `deposit(1)` computes the exact 29-digit sum and the context
rounds it back to `1E+28` — the deposit is silently lost and the returned
"new balance" equals the old one — then `withdraw(1)` subtracts exactly,
ending at `1E+28 - 1 ≠ 1E+28`: the round trip drifts, refuting the claim. -/
theorem deposit_withdraw_drift_counterexample :
    (DecimalCtx.deposit ⟨"A", (10:ℚ)^28, 1000⟩ (some 1)).2
      = .ok ((10:ℚ)^28)
    ∧ (DecimalCtx.deposit ⟨"A", (10:ℚ)^28, 1000⟩ (some 1)).1.balance
      = (10:ℚ)^28
    ∧ (DecimalCtx.withdraw (DecimalCtx.deposit ⟨"A", (10:ℚ)^28, 1000⟩
        (some 1)).1 (some 1)).2 = .ok ((10:ℚ)^28 - 1)
    ∧ (DecimalCtx.withdraw (DecimalCtx.deposit ⟨"A", (10:ℚ)^28, 1000⟩
        (some 1)).1 (some 1)).1.balance = (10:ℚ)^28 - 1
    ∧ (10:ℚ)^28 - 1 ≠ (10:ℚ)^28 := by
  have h2829 : ((10:ℚ)^(28:ℤ) = (10:ℚ)^(28:ℕ)) ∧ ((10:ℚ)^(29:ℤ)
      = (10:ℚ)^(29:ℕ)) := by norm_num
  have he : ratAdjExp ((10:ℚ)^28 + 1) = 28 := by
    apply ratAdjExp_unique _ 28 (by positivity)
    · rw [h2829.1]
      norm_num
    · rw [show (28:ℤ) + 1 = 29 by norm_num, h2829.2]
      norm_num
  have hd' : ((28:ℤ) - (decPrec:ℤ) + 1) ⊔ decEtiny = 1 := by
    rw [show ((28:ℤ) - (decPrec:ℤ) + 1) = 1 by norm_num [decPrec],
      max_eq_left (by norm_num [decEtiny, decEmin, decPrec])]
  have hfl : ⌊((10:ℚ)^28 + 1) / (10:ℚ)^(1:ℤ)⌋ = 10^27 := by
    rw [Int.floor_eq_iff]
    constructor
    · push_cast
      norm_num
    · push_cast
      norm_num
  have hr : roundHalfEven (((10:ℚ)^28 + 1) / (10:ℚ)^(1:ℤ)) = 10^27 :=
    roundHalfEven_of_floor_lt_half _ _ hfl (by push_cast; norm_num)
  have hround : decRound ((10:ℚ)^28 + 1) = (10:ℚ)^28 := by
    rw [decRound_concrete ((10:ℚ)^28 + 1) 28 1 (10^27) (by positivity) he
      hd' hr]
    push_cast
    norm_num
  have hadj28 : ratAdjExp |(10:ℚ)^28| = 28 := by
    rw [abs_of_pos (by positivity)]
    apply ratAdjExp_unique _ 28 (by positivity)
    · rw [h2829.1]
    · rw [show (28:ℤ) + 1 = 29 by norm_num, h2829.2]
      norm_num
  have hadd : decAdd ((10:ℚ)^28) 1 = some ((10:ℚ)^28) := by
    rw [decAdd, hround, if_neg]
    rintro ⟨-, hlt⟩
    rw [hadj28] at hlt
    norm_num [decEmax] at hlt
  have hdep : DecimalCtx.deposit ⟨"A", (10:ℚ)^28, 1000⟩ (some 1)
      = (⟨"A", (10:ℚ)^28, 1000⟩, .ok ((10:ℚ)^28)) := by
    simp [DecimalCtx.deposit, hadd]
  have hnat : ((10:ℤ)^28 - 1).natAbs = 10^28 - 1 := by decide
  have hsub : decSub ((10:ℚ)^28) 1 = some ((10:ℚ)^28 - 1) := by
    refine decSub_of_representable _ _ ⟨10^28 - 1, 0, by push_cast; ring,
      ?_, by norm_num [decEtiny, decEmin, decPrec],
      by norm_num [decEmax, decPrec]⟩
    rw [hnat]
    norm_num [decPrec]
  have hwd : DecimalCtx.withdraw ⟨"A", (10:ℚ)^28, 1000⟩ (some 1)
      = (⟨"A", (10:ℚ)^28 - 1, 1000⟩, .ok ((10:ℚ)^28 - 1)) := by
    simp [DecimalCtx.withdraw, hsub]
    norm_num
  rw [hdep, hwd]
  norm_num

/-- C4 (amended).  Deposit of a positive `d` followed by a withdraw of the
same `d` on a non-negative balance `b` both succeed and restore `b` exactly
*provided* `b` and `b + d` are representable within the context's 28
significant digits (as every realistic money amount is); without that
proviso the context rounding breaks the round trip, e.g. at balance `1E+28`
with `d = 1`. -/
theorem deposit_withdraw_roundtrip_amended (acct : BankAccount) (a : ℚ)
    (hb : 0 ≤ acct.balance) (ha : 0 < a)
    (h1 : DecRepresentable (acct.balance + a))
    (h2 : DecRepresentable acct.balance) :
    (DecimalCtx.deposit acct (some a)).2 = .ok (acct.balance + a)
    ∧ (DecimalCtx.withdraw (DecimalCtx.deposit acct (some a)).1 (some a)).2
        = .ok acct.balance
    ∧ (DecimalCtx.withdraw (DecimalCtx.deposit acct (some a)).1
        (some a)).1.balance = acct.balance := by
  have hna : ¬ a ≤ 0 := not_le.mpr ha
  have hadd := decAdd_of_representable acct.balance a h1
  have hdep : DecimalCtx.deposit acct (some a)
      = ({ acct with balance := acct.balance + a },
         .ok (acct.balance + a)) := by
    simp [DecimalCtx.deposit, hna, hadd]
  have hsub : decSub (acct.balance + a) a = some acct.balance := by
    have hrepr : DecRepresentable (acct.balance + a - a) := by
      rw [show acct.balance + a - a = acct.balance by ring]
      exact h2
    rw [decSub_of_representable _ _ hrepr]
    rw [show acct.balance + a - a = acct.balance by ring]
  have hnlt : ¬ (acct.balance + a < a) := not_lt.mpr (by linarith)
  rw [hdep]
  refine ⟨rfl, ?_, ?_⟩ <;>
    simp [DecimalCtx.withdraw, hna, hnlt, hsub]

/-- C4 witness: balance 100, deposit 250 then withdraw 250 returns to 100,
both 100 and 350 being well inside 28 significant digits. -/
theorem deposit_withdraw_roundtrip_amended_witness :
    (DecimalCtx.deposit ⟨"A", 100, 1000⟩ (some 250)).2 = .ok 350
    ∧ (DecimalCtx.withdraw (DecimalCtx.deposit ⟨"A", 100, 1000⟩
        (some 250)).1 (some 250)).2 = .ok 100
    ∧ (DecimalCtx.withdraw (DecimalCtx.deposit ⟨"A", 100, 1000⟩
        (some 250)).1 (some 250)).1.balance = 100 := by
  have h := deposit_withdraw_roundtrip_amended ⟨"A", 100, 1000⟩ 250
    (by norm_num) (by norm_num)
    ⟨350, 0, by norm_num, by norm_num [decPrec],
      by norm_num [decEtiny, decEmin, decPrec],
      by norm_num [decEmax, decPrec]⟩
    ⟨100, 0, by norm_num, by norm_num [decPrec],
      by norm_num [decEtiny, decEmin, decPrec],
      by norm_num [decEmax, decPrec]⟩
  norm_num at h ⊢
  exact h

/-! ## C2: transfer under the decimal context -/

/-- At `Emax` scale the withdraw stage's subtraction still succeeds:
`9E+Emax - 5E+Emax = 4E+Emax` is exactly representable. -/
theorem decSub_nineEmax :
    decSub ((9:ℚ) * (10:ℚ)^decEmax) ((5:ℚ) * (10:ℚ)^decEmax)
      = some ((4:ℚ) * (10:ℚ)^decEmax) := by
  have hne : (10:ℚ) ≠ 0 := by norm_num
  have hprec : ((decPrec : ℕ) : ℤ) = 28 := rfl
  have hsplit27 : (10:ℚ)^decEmax
      = (10:ℚ)^(decEmax - 27) * (10:ℚ)^(27:ℤ) := by
    rw [← zpow_add₀ hne]
    congr 1
  have hc27 : ((4 * 10^27 : ℤ) : ℚ) = 4 * (10:ℚ)^(27:ℤ) := by
    push_cast
    norm_num
  have hq : (9:ℚ) * (10:ℚ)^decEmax - 5 * (10:ℚ)^decEmax
      = ((4 * 10^27 : ℤ) : ℚ) * (10:ℚ)^(decEmax - 27) := by
    rw [hsplit27, hc27]
    ring
  have hnat : ((4 * 10^27 : ℤ)).natAbs = 4 * 10^27 := by
    rw [Int.natAbs_mul, Int.natAbs_pow]
    norm_num
  have hrepr : DecRepresentable
      ((9:ℚ) * (10:ℚ)^decEmax - 5 * (10:ℚ)^decEmax) := by
    refine ⟨4 * 10^27, decEmax - 27, hq, ?_, ?_, ?_⟩
    · rw [hnat]
      norm_num [decPrec]
    · norm_num [decEtiny, decEmin, decPrec, decEmax]
    · omega
  rw [decSub_of_representable _ _ hrepr]
  congr 1
  ring

/-- At `Emax` scale the deposit stage's addition overflows:
`9E+Emax + 5E+Emax = 1.4E+(Emax+1)` has adjusted exponent `Emax + 1`, so the
trapped `decimal.Overflow` is raised. -/
theorem decAdd_nineEmax :
    decAdd ((9:ℚ) * (10:ℚ)^decEmax) ((5:ℚ) * (10:ℚ)^decEmax) = none := by
  have hne : (10:ℚ) ≠ 0 := by norm_num
  have hpz : (0:ℚ) < (10:ℚ) ^ decEmax := zpow_pos (by norm_num) _
  have hprec : ((decPrec : ℕ) : ℤ) = 28 := rfl
  have hsplit26 : (10:ℚ)^decEmax
      = (10:ℚ)^(decEmax - 26) * (10:ℚ)^(26:ℤ) := by
    rw [← zpow_add₀ hne]
    congr 1
  have hc26 : ((14 * 10^26 : ℤ) : ℚ) = 14 * (10:ℚ)^(26:ℤ) := by
    push_cast
    norm_num
  have hsum : (9:ℚ) * (10:ℚ)^decEmax + 5 * (10:ℚ)^decEmax
      = 14 * (10:ℚ)^decEmax := by ring
  have hpos : (0:ℚ) < 14 * (10:ℚ)^decEmax := by positivity
  have he14 : ratAdjExp (14 * (10:ℚ)^decEmax) = decEmax + 1 := by
    apply ratAdjExp_unique _ _ hpos
    · rw [zpow_add₀ hne, show (10:ℚ)^(1:ℤ) = 10 from by norm_num,
        mul_comm ((10:ℚ)^decEmax) 10]
      exact mul_le_mul_of_nonneg_right (by norm_num) hpz.le
    · rw [show decEmax + 1 + 1 = decEmax + 2 from by ring, zpow_add₀ hne,
        show (10:ℚ)^(2:ℤ) = 100 from by norm_num,
        mul_comm ((10:ℚ)^decEmax) 100]
      exact mul_lt_mul_of_pos_right (by norm_num) hpz
  have hd' : (decEmax + 1 - (decPrec:ℤ) + 1) ⊔ decEtiny
      = decEmax - 26 := by
    rw [max_eq_left (by norm_num [decEtiny, decEmin, decPrec, decEmax])]
    omega
  have hint : (14:ℚ) * (10:ℚ)^decEmax / (10:ℚ)^(decEmax - 26)
      = ((14 * 10^26 : ℤ) : ℚ) := by
    rw [hsplit26, hc26,
      div_eq_iff (zpow_ne_zero (decEmax - 26) hne :
        (10:ℚ)^(decEmax - 26) ≠ 0)]
    ring
  have hr14 : roundHalfEven
      ((14:ℚ) * (10:ℚ)^decEmax / (10:ℚ)^(decEmax - 26))
      = 14 * 10^26 := by
    rw [hint, roundHalfEven_intCast]
  have hround14 := decRound_concrete (14 * (10:ℚ)^decEmax)
    (decEmax + 1) (decEmax - 26) (14 * 10^26) hpos he14 hd' hr14
  have hback : ((14 * 10^26 : ℤ) : ℚ) * (10:ℚ)^(decEmax - 26)
      = 14 * (10:ℚ)^decEmax := by
    rw [hc26, hsplit26]
    ring
  rw [decAdd, hsum, hround14, hback, if_pos]
  exact ⟨ne_of_gt hpos, by rw [abs_of_pos hpos, he14]; omega⟩

/-- The partial-transfer run, assembled over abstract balances: when the
withdraw stage's subtraction succeeds but the deposit stage's addition
raises the trapped overflow, the transfer fails with the sender already
debited and the receiver untouched. -/
theorem transfer_to_partial_general (n1 n2 : String) (i1 i2 : ℕ)
    (bs br a s' : ℚ) (ha : 0 < a) (hle : a ≤ bs)
    (hsub : decSub bs a = some s') (hadd : decAdd br a = none) :
    DecimalCtx.transfer_to ⟨n1, bs, i1⟩ ⟨n2, br, i2⟩ (some a)
      = (⟨n1, s', i1⟩, ⟨n2, br, i2⟩, .error .overflow) := by
  simp only [DecimalCtx.transfer_to, DecimalCtx.withdraw, DecimalCtx.deposit]
  rw [if_neg (not_le.mpr ha), if_neg (not_lt.mpr hle), hsub,
    if_neg (not_le.mpr ha), hadd]

/-- A failed withdraw never mutates the account. -/
theorem DecimalCtx.withdraw_error_fst (acct : BankAccount)
    (amount : Option ℚ) (e : BankError)
    (h : (DecimalCtx.withdraw acct amount).2 = .error e) :
    (DecimalCtx.withdraw acct amount).1 = acct := by
  rcases amount with _ | a
  · rfl
  · by_cases h1 : a ≤ 0
    · simp [DecimalCtx.withdraw, h1]
    · by_cases h2 : acct.balance < a
      · simp [DecimalCtx.withdraw, h1, h2]
      · cases hs : decSub acct.balance a with
        | none => simp [DecimalCtx.withdraw, h1, h2, hs]
        | some b' => simp [DecimalCtx.withdraw, h1, h2, hs] at h

/-- C2 counterexample, refuting both halves of the claim.  (1) Python
accepts balance `Decimal('1E+28')`; a transfer of `0.5` from it reports full
success — the receiver is credited `0.5` and the returned pair is
`(1E+28, 0.5)` — yet the sender's balance is still `1E+28`, not decreased by
the amount: the subtraction result `9999999999999999999999999999.5` needs 29
significant digits and the context's half-even rounding returns it to
`1E+28`.  (2) With both accounts at `Decimal('9E+999999999999999999')` and
amount `5E+999999999999999999`, the withdraw succeeds (exact difference
`4E+Emax`), but the deposit's sum `1.4E+(Emax+1)` exceeds `Emax` and raises
the trapped `decimal.Overflow`: the call fails with the sender already
debited and the receiver untouched — exactly one account mutated, so
"deposit of the same amount cannot fail after a successful withdraw" is
false of the code as well. -/
theorem transfer_to_rounding_counterexample :
    (DecimalCtx.transfer_to ⟨"A", (10:ℚ)^28, 1000⟩ ⟨"B", 0, 1001⟩
      (some (1/2))
      = (⟨"A", (10:ℚ)^28, 1000⟩, ⟨"B", 1/2, 1001⟩,
         .ok ((10:ℚ)^28, 1/2))
    ∧ (10:ℚ)^28 ≠ (10:ℚ)^28 - 1/2)
    ∧ (DecimalCtx.transfer_to ⟨"A", 9 * (10:ℚ)^decEmax, 1000⟩
        ⟨"B", 9 * (10:ℚ)^decEmax, 1001⟩ (some (5 * (10:ℚ)^decEmax))
      = (⟨"A", 4 * (10:ℚ)^decEmax, 1000⟩, ⟨"B", 9 * (10:ℚ)^decEmax, 1001⟩,
         .error .overflow)
    ∧ (4:ℚ) * (10:ℚ)^decEmax ≠ 9 * (10:ℚ)^decEmax) := by
  refine ⟨?_, ?_⟩
  case refine_2 =>
    have hpz : (0:ℚ) < (10:ℚ) ^ decEmax := zpow_pos (by norm_num) _
    refine ⟨?_, ne_of_lt (mul_lt_mul_of_pos_right
      (by norm_num : (4:ℚ) < 9) hpz)⟩
    exact transfer_to_partial_general "A" "B" 1000 1001
      (9 * (10:ℚ)^decEmax) (9 * (10:ℚ)^decEmax) (5 * (10:ℚ)^decEmax)
      (4 * (10:ℚ)^decEmax) (by positivity)
      (mul_le_mul_of_nonneg_right (by norm_num : (5:ℚ) ≤ 9) hpz.le)
      decSub_nineEmax decAdd_nineEmax
  case refine_1 =>
  have h2829 : ((10:ℚ)^(28:ℤ) = (10:ℚ)^(28:ℕ)) ∧ ((10:ℚ)^(27:ℤ)
      = (10:ℚ)^(27:ℕ)) := by norm_num
  have he : ratAdjExp ((10:ℚ)^28 - 1/2) = 27 := by
    apply ratAdjExp_unique _ 27 (by norm_num)
    · rw [h2829.2]
      norm_num
    · rw [show (27:ℤ) + 1 = 28 by norm_num, h2829.1]
      norm_num
  have hd' : ((27:ℤ) - (decPrec:ℤ) + 1) ⊔ decEtiny = 0 := by
    rw [show ((27:ℤ) - (decPrec:ℤ) + 1) = 0 by norm_num [decPrec],
      max_eq_left (by norm_num [decEtiny, decEmin, decPrec])]
  have hfl : ⌊((10:ℚ)^28 - 1/2) / (10:ℚ)^(0:ℤ)⌋ = 10^28 - 1 := by
    rw [Int.floor_eq_iff]
    constructor
    · push_cast
      norm_num
    · push_cast
      norm_num
  have hodd : ((10:ℤ)^28 - 1) % 2 = 1 := by decide
  have hr : roundHalfEven (((10:ℚ)^28 - 1/2) / (10:ℚ)^(0:ℤ))
      = (10^28 - 1) + 1 :=
    roundHalfEven_tie_odd _ (10^28 - 1) hfl (by push_cast; norm_num) hodd
  have hround : decRound ((10:ℚ)^28 - 1/2) = (10:ℚ)^28 := by
    rw [decRound_concrete ((10:ℚ)^28 - 1/2) 27 0 ((10^28 - 1) + 1)
      (by norm_num) he hd' hr]
    push_cast
    norm_num
  have hadj28 : ratAdjExp |(10:ℚ)^28| = 28 := by
    rw [abs_of_pos (by positivity)]
    apply ratAdjExp_unique _ 28 (by positivity)
    · rw [h2829.1]
    · norm_num
  have hsub : decSub ((10:ℚ)^28) (1/2) = some ((10:ℚ)^28) := by
    rw [decSub, hround, if_neg]
    rintro ⟨-, hlt⟩
    rw [hadj28] at hlt
    norm_num [decEmax] at hlt
  have hadd : decAdd (0:ℚ) (1/2) = some ((1:ℚ)/2) := by
    rw [decAdd_of_representable 0 (1/2)
      ⟨5, -1, by norm_num, by norm_num [decPrec],
        by norm_num [decEtiny, decEmin, decPrec],
        by norm_num [decEmax, decPrec]⟩]
    norm_num
  have hwd : DecimalCtx.withdraw ⟨"A", (10:ℚ)^28, 1000⟩ (some (1/2))
      = (⟨"A", (10:ℚ)^28, 1000⟩, .ok ((10:ℚ)^28)) := by
    simp only [DecimalCtx.withdraw]
    rw [if_neg (by norm_num : ¬((1:ℚ)/2 ≤ 0)),
      if_neg (by norm_num : ¬((10:ℚ)^28 < 1/2)), hsub]
  have hdp : DecimalCtx.deposit ⟨"B", (0:ℚ), 1001⟩ (some (1/2))
      = (⟨"B", (1:ℚ)/2, 1001⟩, .ok ((1:ℚ)/2)) := by
    simp only [DecimalCtx.deposit]
    rw [if_neg (by norm_num : ¬((1:ℚ)/2 ≤ 0)), hadd]
  constructor
  · simp only [DecimalCtx.transfer_to, hwd, hdp]
  · norm_num

/-- C2 (amended).  Under the decimal context, `transfer_to` behaves
stagewise: (a) if the inner withdraw fails, neither account is mutated;
(b) if the transfer returns, the amount parsed to a positive `a` at most
the sender's balance, the sender ends at `round28(balance - a)` and the
receiver at `round28(balance + a)` — equal to the exact `∓a` updates
whenever those sums are representable in 28 significant digits, but not in
general; (c) the deposit stage can itself fail (trapped `decimal.Overflow`)
after a successful withdraw, in which case the sender is already debited
while the receiver is untouched — a partial transfer, contradicting the
original claim's "deposit cannot fail after a successful withdraw". -/
theorem transfer_to_stagewise (sender receiver : BankAccount)
    (amount : Option ℚ) :
    (∀ e, (DecimalCtx.withdraw sender amount).2 = .error e →
      DecimalCtx.transfer_to sender receiver amount
        = (sender, receiver, .error e))
    ∧ (∀ p, (DecimalCtx.transfer_to sender receiver amount).2.2 = .ok p →
      ∃ a, amount = some a ∧ 0 < a ∧ a ≤ sender.balance
        ∧ (DecimalCtx.transfer_to sender receiver amount).1.balance
            = decRound (sender.balance - a)
        ∧ (DecimalCtx.transfer_to sender receiver amount).2.1.balance
            = decRound (receiver.balance + a)
        ∧ p = (decRound (sender.balance - a),
               decRound (receiver.balance + a)))
    ∧ (∀ q e, (DecimalCtx.withdraw sender amount).2 = .ok q →
      (DecimalCtx.transfer_to sender receiver amount).2.2 = .error e →
      e = .overflow
      ∧ (DecimalCtx.transfer_to sender receiver amount).1
          = (DecimalCtx.withdraw sender amount).1
      ∧ (DecimalCtx.transfer_to sender receiver amount).2.1 = receiver) := by
  rcases amount with _ | a
  · refine ⟨?_, ?_, ?_⟩
    · intro e he
      simp only [DecimalCtx.withdraw, Except.error.injEq] at he
      subst he
      simp [DecimalCtx.transfer_to, DecimalCtx.withdraw]
    · intro p hp
      simp [DecimalCtx.transfer_to, DecimalCtx.withdraw] at hp
    · intro q e hq _
      simp [DecimalCtx.withdraw] at hq
  · by_cases h1 : a ≤ 0
    · refine ⟨?_, ?_, ?_⟩
      · intro e he
        simp only [DecimalCtx.withdraw, if_pos h1, Except.error.injEq] at he
        subst he
        simp [DecimalCtx.transfer_to, DecimalCtx.withdraw, h1]
      · intro p hp
        simp [DecimalCtx.transfer_to, DecimalCtx.withdraw, h1] at hp
      · intro q e hq _
        simp [DecimalCtx.withdraw, h1] at hq
    · by_cases h2 : sender.balance < a
      · refine ⟨?_, ?_, ?_⟩
        · intro e he
          simp only [DecimalCtx.withdraw, if_neg h1, if_pos h2,
            Except.error.injEq] at he
          subst he
          simp [DecimalCtx.transfer_to, DecimalCtx.withdraw, h1, h2]
        · intro p hp
          simp [DecimalCtx.transfer_to, DecimalCtx.withdraw, h1, h2] at hp
        · intro q e hq _
          simp [DecimalCtx.withdraw, h1, h2] at hq
      · cases hs : decSub sender.balance a with
        | none =>
            refine ⟨?_, ?_, ?_⟩
            · intro e he
              simp only [DecimalCtx.withdraw, if_neg h1, if_neg h2, hs,
                Except.error.injEq] at he
              subst he
              simp [DecimalCtx.transfer_to, DecimalCtx.withdraw, h1, h2, hs]
            · intro p hp
              simp [DecimalCtx.transfer_to, DecimalCtx.withdraw, h1, h2,
                hs] at hp
            · intro q e hq _
              simp [DecimalCtx.withdraw, h1, h2, hs] at hq
        | some b' =>
            have hb' := decSub_eq_some sender.balance a b' hs
            refine ⟨?_, ?_, ?_⟩
            · intro e he
              simp [DecimalCtx.withdraw, h1, h2, hs] at he
            · intro p hp
              cases hd : decAdd receiver.balance a with
              | none =>
                  simp [DecimalCtx.transfer_to, DecimalCtx.withdraw,
                    DecimalCtx.deposit, h1, h2, hs, hd] at hp
              | some r' =>
                  have hr' := decAdd_eq_some receiver.balance a r' hd
                  refine ⟨a, rfl, not_le.mp h1, not_lt.mp h2, ?_, ?_, ?_⟩ <;>
                    simp [DecimalCtx.transfer_to, DecimalCtx.withdraw,
                      DecimalCtx.deposit, h1, h2, hs, hd] at hp ⊢ <;>
                    simp [← hb', ← hr', hp]
            · intro q e hq he
              cases hd : decAdd receiver.balance a with
              | none =>
                  refine ⟨?_, ?_, ?_⟩ <;>
                    (simp [DecimalCtx.transfer_to, DecimalCtx.withdraw,
                       DecimalCtx.deposit, h1, h2, hs, hd] at he ⊢
                     try simp [he])
              | some r' =>
                  simp [DecimalCtx.transfer_to, DecimalCtx.withdraw,
                    DecimalCtx.deposit, h1, h2, hs, hd] at he

/-- C2 witness: Alice (1000) transfers 200 to Bob (500); both rounded sums
are representable, so the transfer fully succeeds with balances exactly 800
and 700. -/
theorem transfer_to_stagewise_witness :
    ∃ a, (some (200:ℚ)) = some a ∧ 0 < a
      ∧ a ≤ (⟨"Alice", 1000, 1000⟩ : BankAccount).balance
      ∧ (DecimalCtx.transfer_to ⟨"Alice", 1000, 1000⟩ ⟨"Bob", 500, 1001⟩
          (some 200)).1.balance
          = decRound ((⟨"Alice", 1000, 1000⟩ : BankAccount).balance - a)
      ∧ (DecimalCtx.transfer_to ⟨"Alice", 1000, 1000⟩ ⟨"Bob", 500, 1001⟩
          (some 200)).2.1.balance
          = decRound ((⟨"Bob", 500, 1001⟩ : BankAccount).balance + a)
      ∧ ((800:ℚ), (700:ℚ))
          = (decRound ((⟨"Alice", 1000, 1000⟩ : BankAccount).balance - a),
             decRound ((⟨"Bob", 500, 1001⟩ : BankAccount).balance + a)) := by
  have hsub : decSub (1000:ℚ) 200 = some 800 := by
    have h := decSub_of_representable (1000:ℚ) 200
      ⟨800, 0, by norm_num, by norm_num [decPrec],
        by norm_num [decEtiny, decEmin, decPrec],
        by norm_num [decEmax, decPrec]⟩
    rw [h]
    norm_num
  have hadd : decAdd (500:ℚ) 200 = some 700 := by
    have h := decAdd_of_representable (500:ℚ) 200
      ⟨700, 0, by norm_num, by norm_num [decPrec],
        by norm_num [decEtiny, decEmin, decPrec],
        by norm_num [decEmax, decPrec]⟩
    rw [h]
    norm_num
  apply (transfer_to_stagewise ⟨"Alice", 1000, 1000⟩ ⟨"Bob", 500, 1001⟩
    (some 200)).2.1 (800, 700)
  simp [DecimalCtx.transfer_to, DecimalCtx.withdraw, DecimalCtx.deposit,
    hsub, hadd]
  norm_num

end OmkarPython
